import Mathlib

/-!
Shallow embedding of the raw IFD codec (`src/raw_ifd.rs`) of the
tiff-concept repository, together with theorems settling the frozen
claims about it.

Modelling conventions:
- Machine integers are `Nat` with explicit `% 2^w` at the points where the
  source performs a cast (`as u32`) or where a typed value is serialized.
- Byte streams are explicit: a reader is a byte list plus a cursor and a
  seek counter (so that "performs no seek" is observable); a writer in
  `write_raw_ifds` only appends and queries its position, so it is modelled
  by the start position plus the list of bytes emitted so far.
- Fallible operations return `Option` (`none` = I/O error); the `assert!`
  in `RawIFD::to_writer` is a distinct contract failure, modelled by
  `Option` at the directory-write level (it is the only failure a pure
  in-memory writer can encounter).
- The unbounded loop of `read_raw_ifds` is modelled with explicit fuel; a
  run that consumes all fuel is reported by a dedicated `ReadResult`
  constructor, distinct from success and I/O error.
-/

/-- The byte order chosen per file (the `E: ByteOrder` parameter in the
Rust source, instantiated at `BigEndian` or `LittleEndian`). -/
inductive ByteOrder
  | be
  | le
deriving DecidableEq, Repr

/-- `RawIFDEntry` from the source: tag, tag_type, count and the 4 raw
bytes of `value_or_offset`. -/
structure RawIFDEntry where
  tag : Nat
  tag_type : Nat
  count : Nat
  value_or_offset : Nat × Nat × Nat × Nat
deriving DecidableEq, Repr

/-- `RawIFD` from the source: the ordered entry list (the `Vec` in the
tuple struct `RawIFD(pub Vec<RawIFDEntry>)`). -/
structure RawIFD where
  entries : List RawIFDEntry
deriving DecidableEq, Repr

/-- The two bytes emitted by `write_u16::<E>` for a `u16` value. -/
def u16Bytes : ByteOrder → Nat → List Nat
  | .be, v => [v % 2 ^ 16 / 2 ^ 8, v % 2 ^ 8]
  | .le, v => [v % 2 ^ 8, v % 2 ^ 16 / 2 ^ 8]

/-- The four bytes emitted by `write_u32::<E>` for a `u32` value. -/
def u32Bytes : ByteOrder → Nat → List Nat
  | .be, v => [v % 2 ^ 32 / 2 ^ 24, v % 2 ^ 24 / 2 ^ 16, v % 2 ^ 16 / 2 ^ 8, v % 2 ^ 8]
  | .le, v => [v % 2 ^ 8, v % 2 ^ 16 / 2 ^ 8, v % 2 ^ 24 / 2 ^ 16, v % 2 ^ 32 / 2 ^ 24]

/-- The value decoded by `read_u16::<E>` from two bytes. -/
def u16Val : ByteOrder → Nat → Nat → Nat
  | .be, b0, b1 => b0 * 2 ^ 8 + b1
  | .le, b0, b1 => b0 + b1 * 2 ^ 8

/-- The value decoded by `read_u32::<E>` from four bytes. -/
def u32Val : ByteOrder → Nat → Nat → Nat → Nat → Nat
  | .be, b0, b1, b2, b3 => ((b0 * 2 ^ 8 + b1) * 2 ^ 8 + b2) * 2 ^ 8 + b3
  | .le, b0, b1, b2, b3 => b0 + 2 ^ 8 * (b1 + 2 ^ 8 * (b2 + 2 ^ 8 * b3))

/-- A seekable in-memory read stream: the backing bytes, the cursor, and a
counter of the seeks performed so far (so that absence of seeking is a
provable statement). -/
structure RStream where
  data : List Nat
  pos : Nat
  seeks : Nat
deriving DecidableEq, Repr

/-- Read one byte at the cursor; fails (I/O error) at end of stream. -/
def readByte (s : RStream) : Option (Nat × RStream) :=
  match s.data[s.pos]? with
  | some b => some (b, ⟨s.data, s.pos + 1, s.seeks⟩)
  | none => none

/-- `reader.read_u16::<E>()`: two bytes, combined per the byte order; a
byte-read failure propagates (the `?` operator). -/
def read_u16 (bo : ByteOrder) (s : RStream) : Option (Nat × RStream) :=
  match readByte s with
  | none => none
  | some (b0, s) =>
    match readByte s with
    | none => none
    | some (b1, s) => some (u16Val bo b0 b1, s)

/-- `reader.read_u32::<E>()`: four bytes, combined per the byte order; a
byte-read failure propagates (the `?` operator). -/
def read_u32 (bo : ByteOrder) (s : RStream) : Option (Nat × RStream) :=
  match readByte s with
  | none => none
  | some (b0, s) =>
    match readByte s with
    | none => none
    | some (b1, s) =>
      match readByte s with
      | none => none
      | some (b2, s) =>
        match readByte s with
        | none => none
        | some (b3, s) => some (u32Val bo b0 b1 b2 b3, s)

/-- `reader.read_exact(&mut [0; 4])`: four raw bytes, order-independent; a
byte-read failure propagates (the `?` operator). -/
def read_exact4 (s : RStream) : Option ((Nat × Nat × Nat × Nat) × RStream) :=
  match readByte s with
  | none => none
  | some (b0, s) =>
    match readByte s with
    | none => none
    | some (b1, s) =>
      match readByte s with
      | none => none
      | some (b2, s) =>
        match readByte s with
        | none => none
        | some (b3, s) => some ((b0, b1, b2, b3), s)

/-- `reader.seek(SeekFrom::Start(off))`: moves the cursor to the absolute
offset and bumps the seek counter.  An in-memory seek never fails. -/
def seekTo (off : Nat) (s : RStream) : RStream :=
  ⟨s.data, off, s.seeks + 1⟩

/-- `RawIFDEntry::from_reader`: tag, tag_type, count, then 4 raw bytes;
any failed field read propagates (the `?` operator). -/
def RawIFDEntry.from_reader (bo : ByteOrder) (s : RStream) :
    Option (RawIFDEntry × RStream) :=
  match read_u16 bo s with
  | none => none
  | some (tag, s) =>
    match read_u16 bo s with
    | none => none
    | some (tt, s) =>
      match read_u32 bo s with
      | none => none
      | some (c, s) =>
        match read_exact4 s with
        | none => none
        | some (vo, s) => some (⟨tag, tt, c, vo⟩, s)

/-- `RawIFDEntry::to_writer`: the 12 bytes emitted for one entry.  The
`% 2 ^ 8` on the raw bytes is the `u8` type boundary of
`value_or_offset: [u8; 4]`. -/
def RawIFDEntry.to_writer (bo : ByteOrder) (e : RawIFDEntry) : List Nat :=
  u16Bytes bo e.tag ++ u16Bytes bo e.tag_type ++ u32Bytes bo e.count ++
    [e.value_or_offset.1 % 2 ^ 8, e.value_or_offset.2.1 % 2 ^ 8,
     e.value_or_offset.2.2.1 % 2 ^ 8, e.value_or_offset.2.2.2 % 2 ^ 8]

/-- The loop of `RawIFD::from_reader`: decode `n` entries in order; a
failed entry decode propagates (the `?` operator). -/
def readEntries (bo : ByteOrder) : Nat → RStream → Option (List RawIFDEntry × RStream)
  | 0, s => some ([], s)
  | n + 1, s =>
    match RawIFDEntry.from_reader bo s with
    | none => none
    | some (e, s) =>
      match readEntries bo n s with
      | none => none
      | some (es, s) => some (e :: es, s)

/-- `RawIFD::from_reader`: a 16-bit entry count, then that many entries;
any failure propagates (the `?` operator). -/
def RawIFD.from_reader (bo : ByteOrder) (s : RStream) : Option (RawIFD × RStream) :=
  match read_u16 bo s with
  | none => none
  | some (n, s) =>
    match readEntries bo n s with
    | none => none
    | some (es, s) => some (⟨es⟩, s)

/-- The loop of `RawIFD::to_writer`: each entry's bytes in order. -/
def entriesBytes (bo : ByteOrder) : List RawIFDEntry → List Nat
  | [] => []
  | e :: es => e.to_writer bo ++ entriesBytes bo es

/-- `RawIFD::to_writer`: `assert!(len < u16::MAX as usize)` (i.e.
`len < 65535`) is the contract-error path, modelled as `none`; otherwise
the 16-bit count followed by every entry. -/
def RawIFD.to_writer (bo : ByteOrder) (d : RawIFD) : Option (List Nat) :=
  if d.entries.length < 65535 then
    some (u16Bytes bo d.entries.length ++ entriesBytes bo d.entries)
  else
    none

/-- Outcome of a fuelled run of the `read_raw_ifds` loop: success with the
final reader state, an I/O error, or fuel exhaustion (the loop is still
running). -/
inductive ReadResult
  | ok : List RawIFD → RStream → ReadResult
  | ioError : ReadResult
  | fuelOut : ReadResult
deriving DecidableEq, Repr

/-- `read_raw_ifds`, with explicit fuel bounding the number of loop
iterations: read a 32-bit offset; 0 terminates; otherwise seek to it, read
one directory there, and continue. -/
def read_raw_ifds_fuel (bo : ByteOrder) : Nat → RStream → ReadResult
  | 0, _ => .fuelOut
  | fuel + 1, s =>
    match read_u32 bo s with
    | none => .ioError
    | some (off, s) =>
      if off = 0 then .ok [] s
      else
        match RawIFD.from_reader bo (seekTo off s) with
        | none => .ioError
        | some (d, s) =>
          match read_raw_ifds_fuel bo fuel s with
          | .ok ds s' => .ok (d :: ds) s'
          | r => r

/-- `write_raw_ifds`, with `start` the writer position at the call: the
returned list is the byte sequence appended to the stream.  After a
non-final directory the source queries the position and writes
`current_position as u32 + 4`; the cast and the 32-bit addition are the
explicit `% 2 ^ 32`.  After the final directory (or for an empty chain) it
writes the 32-bit zero sentinel. -/
def write_raw_ifds (bo : ByteOrder) : Nat → List RawIFD → Option (List Nat)
  | _, [] => some (u32Bytes bo 0)
  | start, d :: rest =>
    match d.to_writer bo, rest with
    | none, _ => none
    | some db, [] => some (db ++ u32Bytes bo 0)
    | some db, r :: rs =>
      match write_raw_ifds bo (start + db.length + 4) (r :: rs) with
      | none => none
      | some w =>
        some (db ++ u32Bytes bo (((start + db.length) % 2 ^ 32 + 4) % 2 ^ 32) ++ w)

/-- Range invariants of the Rust field types (`u16`, `u32`, `[u8; 4]`),
which every value of the Rust struct satisfies by construction. -/
def RawIFDEntry.WF (e : RawIFDEntry) : Prop :=
  e.tag < 2 ^ 16 ∧ e.tag_type < 2 ^ 16 ∧ e.count < 2 ^ 32 ∧
    e.value_or_offset.1 < 2 ^ 8 ∧ e.value_or_offset.2.1 < 2 ^ 8 ∧
    e.value_or_offset.2.2.1 < 2 ^ 8 ∧ e.value_or_offset.2.2.2 < 2 ^ 8

/-- A directory whose entries all satisfy the Rust type ranges. -/
def RawIFD.WF (d : RawIFD) : Prop := ∀ e ∈ d.entries, e.WF

/-- A chain whose directories all satisfy the Rust type ranges. -/
def ChainWF (C : List RawIFD) : Prop := ∀ d ∈ C, d.WF

instance (e : RawIFDEntry) : Decidable e.WF :=
  inferInstanceAs (Decidable (e.tag < 2 ^ 16 ∧ e.tag_type < 2 ^ 16 ∧ e.count < 2 ^ 32 ∧
    e.value_or_offset.1 < 2 ^ 8 ∧ e.value_or_offset.2.1 < 2 ^ 8 ∧
    e.value_or_offset.2.2.1 < 2 ^ 8 ∧ e.value_or_offset.2.2.2 < 2 ^ 8))

instance (d : RawIFD) : Decidable d.WF :=
  inferInstanceAs (Decidable (∀ e ∈ d.entries, e.WF))

instance (C : List RawIFD) : Decidable (ChainWF C) :=
  inferInstanceAs (Decidable (∀ d ∈ C, d.WF))

/-- Number of bytes `RawIFD::to_writer` emits for a directory that passes
the contract check: 2 for the count plus 12 per entry. -/
def dirSize (d : RawIFD) : Nat := 2 + 12 * d.entries.length

/-- Offset, relative to the first byte written by `write_raw_ifds`, of the
start of directory `i`'s entry-count field (each directory is followed by
exactly one 4-byte link or sentinel field). -/
def relStart : List RawIFD → Nat → Nat
  | _, 0 => 0
  | [], _ + 1 => 0
  | d :: rest, i + 1 => dirSize d + 4 + relStart rest i

/-- `SliceEq D q w`: the bytes of `D` starting at position `q` are exactly
`w` (for `w.length` positions). -/
def SliceEq (D : List Nat) (q : Nat) (w : List Nat) : Prop :=
  ∀ i, i < w.length → D[q + i]? = w[i]?

theorem u16Bytes_length (bo : ByteOrder) (v : Nat) : (u16Bytes bo v).length = 2 := by
  cases bo <;> rfl

theorem u32Bytes_length (bo : ByteOrder) (v : Nat) : (u32Bytes bo v).length = 4 := by
  cases bo <;> rfl

theorem u32Bytes_zero (bo : ByteOrder) : u32Bytes bo 0 = [0, 0, 0, 0] := by
  cases bo <;> rfl

theorem entry_to_writer_length (bo : ByteOrder) (e : RawIFDEntry) :
    (e.to_writer bo).length = 12 := by
  cases bo <;> simp [RawIFDEntry.to_writer, u16Bytes, u32Bytes]

theorem sliceEq_nil (D : List Nat) (q : Nat) : SliceEq D q [] := by
  intro i hi
  simp at hi

theorem sliceEq_cons (D : List Nat) (q b : Nat) (w : List Nat) :
    SliceEq D q (b :: w) ↔ D[q]? = some b ∧ SliceEq D (q + 1) w := by
  constructor
  · intro h
    refine ⟨by simpa using h 0 (by simp), fun i hi => ?_⟩
    have h2 := h (i + 1) (by simpa using Nat.succ_lt_succ hi)
    have harith : q + (i + 1) = q + 1 + i := by omega
    rw [harith] at h2
    simpa using h2
  · rintro ⟨h0, h1⟩ i hi
    cases i with
    | zero => simpa using h0
    | succ j =>
      have h2 := h1 j (Nat.lt_of_succ_lt_succ (by simpa using hi))
      have harith : q + (j + 1) = q + 1 + j := by omega
      rw [harith]
      simpa using h2

theorem sliceEq_append (D : List Nat) (q : Nat) (a b : List Nat) :
    SliceEq D q (a ++ b) ↔ SliceEq D q a ∧ SliceEq D (q + a.length) b := by
  induction a generalizing q with
  | nil =>
    simp only [List.nil_append, List.length_nil, Nat.add_zero]
    exact ⟨fun h => ⟨sliceEq_nil D q, h⟩, fun h => h.2⟩
  | cons x xs ih =>
    simp only [List.cons_append, sliceEq_cons, ih, List.length_cons]
    constructor
    · rintro ⟨h0, h1, h2⟩
      refine ⟨⟨h0, h1⟩, ?_⟩
      have harith : q + (xs.length + 1) = q + 1 + xs.length := by omega
      rw [harith]; exact h2
    · rintro ⟨⟨h0, h1⟩, h2⟩
      refine ⟨h0, h1, ?_⟩
      have harith : q + 1 + xs.length = q + (xs.length + 1) := by omega
      rw [harith]; exact h2

theorem sliceEq_refl (D : List Nat) : SliceEq D 0 D := by
  intro i hi
  simp

theorem sliceEq_shift (a w x : List Nat) (p : Nat) (h : SliceEq w p x) :
    SliceEq (a ++ w) (a.length + p) x := by
  intro i hi
  have harith : a.length + p + i = a.length + (p + i) := by omega
  rw [harith, List.getElem?_append_right (by omega)]
  have : a.length + (p + i) - a.length = p + i := by omega
  rw [this]
  exact h i hi

theorem readByte_slice (D : List Nat) (q k b : Nat) (h : D[q]? = some b) :
    readByte ⟨D, q, k⟩ = some (b, ⟨D, q + 1, k⟩) := by
  simp [readByte, h]

theorem read_u16_slice (bo : ByteOrder) (D : List Nat) (q k v : Nat) (hv : v < 2 ^ 16)
    (h : SliceEq D q (u16Bytes bo v)) :
    read_u16 bo ⟨D, q, k⟩ = some (v, ⟨D, q + 2, k⟩) := by
  cases bo <;>
  · simp only [u16Bytes, sliceEq_cons] at h
    obtain ⟨h0, h1, -⟩ := h
    simp [read_u16, readByte_slice _ _ _ _ h0, readByte_slice _ _ _ _ h1, u16Val]
    omega

theorem read_u32_slice (bo : ByteOrder) (D : List Nat) (q k v : Nat) (hv : v < 2 ^ 32)
    (h : SliceEq D q (u32Bytes bo v)) :
    read_u32 bo ⟨D, q, k⟩ = some (v, ⟨D, q + 4, k⟩) := by
  cases bo <;>
  · simp only [u32Bytes, sliceEq_cons] at h
    obtain ⟨h0, h1, h2, h3, -⟩ := h
    simp [read_u32, readByte_slice _ _ _ _ h0, readByte_slice _ _ _ _ h1,
      readByte_slice _ _ _ _ h2, readByte_slice _ _ _ _ h3, u32Val]
    omega

theorem read_exact4_slice (D : List Nat) (q k a b c d : Nat)
    (h : SliceEq D q [a, b, c, d]) :
    read_exact4 ⟨D, q, k⟩ = some ((a, b, c, d), ⟨D, q + 4, k⟩) := by
  simp only [sliceEq_cons] at h
  obtain ⟨h0, h1, h2, h3, -⟩ := h
  simp [read_exact4, readByte_slice _ _ _ _ h0, readByte_slice _ _ _ _ h1,
    readByte_slice _ _ _ _ h2, readByte_slice _ _ _ _ h3]
theorem readByte_some (s : RStream) (b : Nat) (s' : RStream)
    (h : readByte s = some (b, s')) :
    s'.data = s.data ∧ s'.pos = s.pos + 1 ∧ s'.seeks = s.seeks ∧
      s.pos < s.data.length ∧ s.data[s.pos]? = some b := by
  unfold readByte at h
  cases hg : s.data[s.pos]? with
  | none => rw [hg] at h; exact absurd h (by simp)
  | some x =>
    rw [hg] at h
    simp only [Option.some.injEq, Prod.mk.injEq] at h
    obtain ⟨hb, hs⟩ := h
    subst hb
    subst hs
    refine ⟨rfl, rfl, rfl, ?_, rfl⟩
    rcases List.getElem?_eq_some.mp hg with ⟨hlt, -⟩
    exact hlt

theorem read_u16_some (bo : ByteOrder) (s : RStream) (v : Nat) (s' : RStream)
    (h : read_u16 bo s = some (v, s')) :
    s'.data = s.data ∧ s'.pos = s.pos + 2 ∧ s'.seeks = s.seeks ∧
      s.pos + 2 ≤ s.data.length := by
  unfold read_u16 at h
  cases h1 : readByte s with
  | none => rw [h1] at h; exact absurd h (by simp)
  | some p =>
    obtain ⟨b0, s1⟩ := p
    rw [h1] at h
    simp only at h
    cases h2 : readByte s1 with
    | none => rw [h2] at h; exact absurd h (by simp)
    | some q =>
      obtain ⟨b1, s2⟩ := q
      rw [h2] at h
      simp only [Option.some.injEq, Prod.mk.injEq] at h
      obtain ⟨-, hs⟩ := h
      obtain ⟨d1, p1, k1, l1, -⟩ := readByte_some _ _ _ h1
      obtain ⟨d2, p2, k2, l2, -⟩ := readByte_some _ _ _ h2
      rw [d1] at d2
      rw [p1] at p2
      rw [k1] at k2
      rw [p1, d1] at l2
      subst hs
      exact ⟨d2, by omega, k2, by omega⟩

theorem read_u32_some (bo : ByteOrder) (s : RStream) (v : Nat) (s' : RStream)
    (h : read_u32 bo s = some (v, s')) :
    s'.data = s.data ∧ s'.pos = s.pos + 4 ∧ s'.seeks = s.seeks ∧
      s.pos + 4 ≤ s.data.length := by
  unfold read_u32 at h
  cases h1 : readByte s with
  | none => rw [h1] at h; exact absurd h (by simp)
  | some p =>
    obtain ⟨b0, s1⟩ := p
    rw [h1] at h
    simp only at h
    cases h2 : readByte s1 with
    | none => rw [h2] at h; exact absurd h (by simp)
    | some q =>
      obtain ⟨b1, s2⟩ := q
      rw [h2] at h
      simp only at h
      cases h3 : readByte s2 with
      | none => rw [h3] at h; exact absurd h (by simp)
      | some r =>
        obtain ⟨b2, s3⟩ := r
        rw [h3] at h
        simp only at h
        cases h4 : readByte s3 with
        | none => rw [h4] at h; exact absurd h (by simp)
        | some t =>
          obtain ⟨b3, s4⟩ := t
          rw [h4] at h
          simp only [Option.some.injEq, Prod.mk.injEq] at h
          obtain ⟨-, hs⟩ := h
          obtain ⟨d1, p1, k1, l1, -⟩ := readByte_some _ _ _ h1
          obtain ⟨d2, p2, k2, l2, -⟩ := readByte_some _ _ _ h2
          obtain ⟨d3, p3, k3, l3, -⟩ := readByte_some _ _ _ h3
          obtain ⟨d4, p4, k4, l4, -⟩ := readByte_some _ _ _ h4
          subst hs
          rw [d1] at d2 l2
          rw [d2] at d3 l3
          rw [d3] at d4 l4
          rw [p1] at p2 l2
          rw [p2] at p3 l3
          rw [p3] at p4 l4
          rw [k1] at k2
          rw [k2] at k3
          rw [k3] at k4
          exact ⟨d4, by omega, k4, by omega⟩

theorem read_exact4_some (s : RStream) (vo : Nat × Nat × Nat × Nat) (s' : RStream)
    (h : read_exact4 s = some (vo, s')) :
    s'.data = s.data ∧ s'.pos = s.pos + 4 ∧ s'.seeks = s.seeks ∧
      s.pos + 4 ≤ s.data.length := by
  unfold read_exact4 at h
  cases h1 : readByte s with
  | none => rw [h1] at h; exact absurd h (by simp)
  | some p =>
    obtain ⟨b0, s1⟩ := p
    rw [h1] at h
    simp only at h
    cases h2 : readByte s1 with
    | none => rw [h2] at h; exact absurd h (by simp)
    | some q =>
      obtain ⟨b1, s2⟩ := q
      rw [h2] at h
      simp only at h
      cases h3 : readByte s2 with
      | none => rw [h3] at h; exact absurd h (by simp)
      | some r =>
        obtain ⟨b2, s3⟩ := r
        rw [h3] at h
        simp only at h
        cases h4 : readByte s3 with
        | none => rw [h4] at h; exact absurd h (by simp)
        | some t =>
          obtain ⟨b3, s4⟩ := t
          rw [h4] at h
          simp only [Option.some.injEq, Prod.mk.injEq] at h
          obtain ⟨-, hs⟩ := h
          obtain ⟨d1, p1, k1, l1, -⟩ := readByte_some _ _ _ h1
          obtain ⟨d2, p2, k2, l2, -⟩ := readByte_some _ _ _ h2
          obtain ⟨d3, p3, k3, l3, -⟩ := readByte_some _ _ _ h3
          obtain ⟨d4, p4, k4, l4, -⟩ := readByte_some _ _ _ h4
          subst hs
          rw [d1] at d2 l2
          rw [d2] at d3 l3
          rw [d3] at d4 l4
          rw [p1] at p2 l2
          rw [p2] at p3 l3
          rw [p3] at p4 l4
          rw [k1] at k2
          rw [k2] at k3
          rw [k3] at k4
          exact ⟨d4, by omega, k4, by omega⟩

theorem entry_from_reader_some (bo : ByteOrder) (s : RStream) (e : RawIFDEntry)
    (s' : RStream) (h : RawIFDEntry.from_reader bo s = some (e, s')) :
    s'.data = s.data ∧ s'.pos = s.pos + 12 ∧ s'.seeks = s.seeks ∧
      s.pos + 12 ≤ s.data.length := by
  unfold RawIFDEntry.from_reader at h
  cases h1 : read_u16 bo s with
  | none => rw [h1] at h; exact absurd h (by simp)
  | some p =>
    obtain ⟨tag, s1⟩ := p
    rw [h1] at h
    simp only at h
    cases h2 : read_u16 bo s1 with
    | none => rw [h2] at h; exact absurd h (by simp)
    | some q =>
      obtain ⟨tt, s2⟩ := q
      rw [h2] at h
      simp only at h
      cases h3 : read_u32 bo s2 with
      | none => rw [h3] at h; exact absurd h (by simp)
      | some r =>
        obtain ⟨c, s3⟩ := r
        rw [h3] at h
        simp only at h
        cases h4 : read_exact4 s3 with
        | none => rw [h4] at h; exact absurd h (by simp)
        | some t =>
          obtain ⟨vo, s4⟩ := t
          rw [h4] at h
          simp only [Option.some.injEq, Prod.mk.injEq] at h
          obtain ⟨-, hs⟩ := h
          obtain ⟨d1, p1, k1, l1⟩ := read_u16_some _ _ _ _ h1
          obtain ⟨d2, p2, k2, l2⟩ := read_u16_some _ _ _ _ h2
          obtain ⟨d3, p3, k3, l3⟩ := read_u32_some _ _ _ _ h3
          obtain ⟨d4, p4, k4, l4⟩ := read_exact4_some _ _ _ h4
          subst hs
          rw [d1] at d2 l2
          rw [d2] at d3 l3
          rw [d3] at d4 l4
          rw [p1] at p2 l2
          rw [p2] at p3 l3
          rw [p3] at p4 l4
          rw [k1] at k2
          rw [k2] at k3
          rw [k3] at k4
          exact ⟨d4, by omega, k4, by omega⟩

theorem readEntries_some (bo : ByteOrder) :
    ∀ (n : Nat) (s : RStream) (es : List RawIFDEntry) (s' : RStream),
    readEntries bo n s = some (es, s') →
    es.length = n ∧ s'.data = s.data ∧ s'.pos = s.pos + 12 * n ∧ s'.seeks = s.seeks ∧
      (0 < n → s.pos + 12 * n ≤ s.data.length)
  | 0, s, es, s', h => by
    simp only [readEntries, Option.some.injEq, Prod.mk.injEq] at h
    obtain ⟨hes, hs⟩ := h
    subst hes
    subst hs
    exact ⟨rfl, rfl, by omega, rfl, by omega⟩
  | n + 1, s, es, s', h => by
    unfold readEntries at h
    cases h1 : RawIFDEntry.from_reader bo s with
    | none => rw [h1] at h; exact absurd h (by simp)
    | some p =>
      obtain ⟨e, s1⟩ := p
      rw [h1] at h
      simp only at h
      cases h2 : readEntries bo n s1 with
      | none => rw [h2] at h; exact absurd h (by simp)
      | some q =>
        obtain ⟨es2, s2⟩ := q
        rw [h2] at h
        simp only [Option.some.injEq, Prod.mk.injEq] at h
        obtain ⟨hes, hs⟩ := h
        obtain ⟨d1, p1, k1, l1⟩ := entry_from_reader_some _ _ _ _ h1
        obtain ⟨hlen, d2, p2, k2, l2⟩ := readEntries_some bo n _ _ _ h2
        subst hes
        subst hs
        rw [d1] at d2
        rw [p1] at p2
        rw [k1] at k2
        rw [p1, d1] at l2
        refine ⟨by simp [hlen], d2, by omega, k2, ?_⟩
        intro hp
        rcases Nat.eq_zero_or_pos n with hn | hn
        · subst hn; omega
        · have hb := l2 hn; omega

theorem dir_from_reader_some (bo : ByteOrder) (s : RStream) (d : RawIFD)
    (s' : RStream) (h : RawIFD.from_reader bo s = some (d, s')) :
    ∃ n s₁, read_u16 bo s = some (n, s₁) ∧ d.entries.length = n ∧
      s'.data = s.data ∧ s'.pos = s.pos + 2 + 12 * n ∧ s'.seeks = s.seeks ∧
      (0 < n → s.pos + 2 + 12 * n ≤ s.data.length) := by
  unfold RawIFD.from_reader at h
  cases h1 : read_u16 bo s with
  | none => rw [h1] at h; exact absurd h (by simp)
  | some p =>
    obtain ⟨n, s1⟩ := p
    rw [h1] at h
    simp only at h
    cases h2 : readEntries bo n s1 with
    | none => rw [h2] at h; exact absurd h (by simp)
    | some q =>
      obtain ⟨es, s2⟩ := q
      rw [h2] at h
      simp only [Option.some.injEq, Prod.mk.injEq] at h
      obtain ⟨hd, hs⟩ := h
      obtain ⟨d1, p1, k1, l1⟩ := read_u16_some _ _ _ _ h1
      obtain ⟨hlen, d2, p2, k2, l2⟩ := readEntries_some bo n _ _ _ h2
      subst hs
      rw [d1] at d2
      rw [p1] at p2
      rw [k1] at k2
      rw [p1, d1] at l2
      refine ⟨n, s1, rfl, ?_, d2, by omega, k2, ?_⟩
      · rw [← hd]; exact hlen
      · intro hp
        have hb := l2 hp
        omega

theorem entry_roundtrip_slice (bo : ByteOrder) (D : List Nat) (q k : Nat)
    (e : RawIFDEntry) (he : e.WF) (h : SliceEq D q (e.to_writer bo)) :
    RawIFDEntry.from_reader bo ⟨D, q, k⟩ = some (e, ⟨D, q + 12, k⟩) := by
  obtain ⟨ht, htt, hc, hv1, hv2, hv3, hv4⟩ := he
  unfold RawIFDEntry.to_writer at h
  simp only [sliceEq_append, List.length_append, u16Bytes_length, u32Bytes_length] at h
  obtain ⟨⟨⟨h1, h2⟩, h3⟩, h4⟩ := h
  rw [Nat.mod_eq_of_lt hv1, Nat.mod_eq_of_lt hv2, Nat.mod_eq_of_lt hv3,
    Nat.mod_eq_of_lt hv4] at h4
  simp only [RawIFDEntry.from_reader,
    read_u16_slice bo D q k e.tag ht h1,
    read_u16_slice bo D (q + 2) k e.tag_type htt h2,
    read_u32_slice bo D (q + 2 + 2) k e.count hc h3,
    read_exact4_slice D (q + 2 + 2 + 4) k _ _ _ _ h4]

theorem entriesBytes_length (bo : ByteOrder) :
    ∀ es : List RawIFDEntry, (entriesBytes bo es).length = 12 * es.length
  | [] => rfl
  | e :: es => by
    simp only [entriesBytes, List.length_append, entriesBytes_length bo es,
      entry_to_writer_length, List.length_cons]
    omega

theorem entries_roundtrip_slice (bo : ByteOrder) :
    ∀ (es : List RawIFDEntry) (D : List Nat) (q k : Nat),
    (∀ e ∈ es, e.WF) → SliceEq D q (entriesBytes bo es) →
    readEntries bo es.length ⟨D, q, k⟩ = some (es, ⟨D, q + 12 * es.length, k⟩)
  | [], D, q, k, _, _ => by simp [readEntries]
  | e :: es, D, q, k, hwf, h => by
    unfold entriesBytes at h
    rw [sliceEq_append, entry_to_writer_length] at h
    obtain ⟨h1, h2⟩ := h
    have he := entry_roundtrip_slice bo D q k e (hwf e (by simp)) h1
    have ih := entries_roundtrip_slice bo es D (q + 12) k
      (fun x hx => hwf x (by simp [hx])) h2
    show readEntries bo (es.length + 1) ⟨D, q, k⟩ = _
    simp only [readEntries, he, ih, List.length_cons, Option.some.injEq, Prod.mk.injEq,
      RStream.mk.injEq, true_and, and_true]
    omega

theorem dir_to_writer_some (bo : ByteOrder) (d : RawIFD) (db : List Nat)
    (h : d.to_writer bo = some db) :
    d.entries.length < 65535 ∧
      db = u16Bytes bo d.entries.length ++ entriesBytes bo d.entries ∧
      db.length = dirSize d := by
  unfold RawIFD.to_writer at h
  by_cases hlt : d.entries.length < 65535
  · rw [if_pos hlt] at h
    simp only [Option.some.injEq] at h
    refine ⟨hlt, h.symm, ?_⟩
    rw [← h]
    simp [u16Bytes_length, entriesBytes_length, dirSize]
  · rw [if_neg hlt] at h
    exact absurd h (by simp)

theorem dir_roundtrip_slice (bo : ByteOrder) (D : List Nat) (q k : Nat) (d : RawIFD)
    (db : List Nat) (hwf : d.WF) (hw : d.to_writer bo = some db)
    (h : SliceEq D q db) :
    RawIFD.from_reader bo ⟨D, q, k⟩ = some (d, ⟨D, q + dirSize d, k⟩) := by
  obtain ⟨hlt, hdb, hlen⟩ := dir_to_writer_some bo d db hw
  subst hdb
  rw [sliceEq_append, u16Bytes_length] at h
  obtain ⟨h1, h2⟩ := h
  have hcount := read_u16_slice bo D q k d.entries.length (by omega) h1
  have hents := entries_roundtrip_slice bo d.entries D (q + 2) k hwf h2
  simp only [RawIFD.from_reader, hcount, hents, Option.some.injEq, Prod.mk.injEq,
    RStream.mk.injEq, dirSize, true_and, and_true]
  omega

theorem dir_to_writer_none (bo : ByteOrder) (d : RawIFD)
    (h : RawIFD.to_writer bo d = none) : 65535 ≤ d.entries.length := by
  unfold RawIFD.to_writer at h
  by_cases hlt : d.entries.length < 65535
  · rw [if_pos hlt] at h; exact absurd h (by simp)
  · omega

theorem dir_to_writer_exists (bo : ByteOrder) (d : RawIFD)
    (h : d.entries.length < 65535) : ∃ db, RawIFD.to_writer bo d = some db :=
  ⟨u16Bytes bo d.entries.length ++ entriesBytes bo d.entries, by
    unfold RawIFD.to_writer; rw [if_pos h]⟩

theorem write_cons_none (bo : ByteOrder) (start : Nat) (d : RawIFD)
    (rest : List RawIFD) (h : d.to_writer bo = none) :
    write_raw_ifds bo start (d :: rest) = none := by
  unfold write_raw_ifds
  cases rest <;> rw [h]

theorem write_single_some (bo : ByteOrder) (start : Nat) (d : RawIFD) (db : List Nat)
    (h : d.to_writer bo = some db) :
    write_raw_ifds bo start [d] = some (db ++ u32Bytes bo 0) := by
  unfold write_raw_ifds
  rw [h]

theorem write_cons2_eq (bo : ByteOrder) (start : Nat) (d r : RawIFD) (rs : List RawIFD)
    (db : List Nat) (h : d.to_writer bo = some db) :
    write_raw_ifds bo start (d :: r :: rs) =
      match write_raw_ifds bo (start + db.length + 4) (r :: rs) with
      | none => none
      | some w =>
        some (db ++ u32Bytes bo (((start + db.length) % 2 ^ 32 + 4) % 2 ^ 32) ++ w) := by
  conv_lhs => unfold write_raw_ifds
  rw [h]

theorem relStart_nil (i : Nat) : relStart [] i = 0 := by
  cases i <;> rfl

theorem relStart_succ : ∀ (C : List RawIFD) (i : Nat) (d : RawIFD),
    C[i]? = some d → relStart C (i + 1) = relStart C i + dirSize d + 4
  | [], i, d, h => by simp at h
  | c :: rest, 0, d, h => by
    simp only [List.getElem?_cons_zero, Option.some.injEq] at h
    subst h
    simp [relStart, relStart_nil]
  | c :: rest, i + 1, d, h => by
    simp only [List.getElem?_cons_succ] at h
    have ih := relStart_succ rest i d h
    simp only [relStart, ih]
    omega

theorem relStart_mono : ∀ (C : List RawIFD) (i j : Nat), i ≤ j →
    relStart C i ≤ relStart C j
  | [], i, j, _ => by rw [relStart_nil, relStart_nil]
  | c :: rest, 0, j, _ => by
    cases j with
    | zero => exact Nat.le_refl _
    | succ j => simp [relStart]
  | c :: rest, i + 1, j, h => by
    cases j with
    | zero => omega
    | succ j =>
      have ih := relStart_mono rest i j (by omega)
      simp only [relStart]
      omega

theorem write_some_counts (bo : ByteOrder) :
    ∀ (start : Nat) (C : List RawIFD) (w : List Nat),
    write_raw_ifds bo start C = some w → ∀ d ∈ C, d.entries.length < 65535
  | _, [], _, _ => by intro x hx; simp at hx
  | start, [d], w, h => by
    intro x hx
    simp only [List.mem_singleton] at hx
    subst hx
    cases hdb : x.to_writer bo with
    | none => rw [write_cons_none bo start x [] hdb] at h; exact absurd h (by simp)
    | some db => exact (dir_to_writer_some bo x db hdb).1
  | start, d :: r :: rs, w, h => by
    intro x hx
    cases hdb : d.to_writer bo with
    | none => rw [write_cons_none bo start d (r :: rs) hdb] at h; exact absurd h (by simp)
    | some db =>
      rw [write_cons2_eq bo start d r rs db hdb] at h
      cases hw : write_raw_ifds bo (start + db.length + 4) (r :: rs) with
      | none => rw [hw] at h; exact absurd h (by simp)
      | some w' =>
        rcases List.mem_cons.mp hx with hxd | hxr
        · subst hxd; exact (dir_to_writer_some bo x db hdb).1
        · exact write_some_counts bo (start + db.length + 4) (r :: rs) w' hw x hxr

theorem write_counts_some (bo : ByteOrder) :
    ∀ (start : Nat) (C : List RawIFD),
    (∀ d ∈ C, d.entries.length < 65535) → ∃ w, write_raw_ifds bo start C = some w
  | _, [], _ => ⟨u32Bytes bo 0, rfl⟩
  | start, [d], h => by
    obtain ⟨db, hdb⟩ := dir_to_writer_exists bo d (h d (by simp))
    exact ⟨db ++ u32Bytes bo 0, write_single_some bo start d db hdb⟩
  | start, d :: r :: rs, h => by
    obtain ⟨db, hdb⟩ := dir_to_writer_exists bo d (h d (by simp))
    obtain ⟨w', hw⟩ := write_counts_some bo (start + db.length + 4) (r :: rs)
      (fun x hx => h x (List.mem_cons_of_mem d hx))
    exact ⟨db ++ u32Bytes bo (((start + db.length) % 2 ^ 32 + 4) % 2 ^ 32) ++ w', by
      rw [write_cons2_eq bo start d r rs db hdb, hw]⟩

theorem write_length (bo : ByteOrder) :
    ∀ (start : Nat) (C : List RawIFD) (w : List Nat),
    write_raw_ifds bo start C = some w → C ≠ [] → w.length = relStart C C.length
  | _, [], _, _, hne => absurd rfl hne
  | start, [d], w, h, _ => by
    cases hdb : d.to_writer bo with
    | none => rw [write_cons_none bo start d [] hdb] at h; exact absurd h (by simp)
    | some db =>
      rw [write_single_some bo start d db hdb] at h
      simp only [Option.some.injEq] at h
      subst h
      obtain ⟨-, -, hlen⟩ := dir_to_writer_some bo d db hdb
      have hr : relStart [d] ([d] : List RawIFD).length = dirSize d + 4 := by rfl
      rw [hr]
      simp only [List.length_append, u32Bytes_length]
      omega
  | start, d :: r :: rs, w, h, _ => by
    cases hdb : d.to_writer bo with
    | none => rw [write_cons_none bo start d (r :: rs) hdb] at h; exact absurd h (by simp)
    | some db =>
      rw [write_cons2_eq bo start d r rs db hdb] at h
      cases hw : write_raw_ifds bo (start + db.length + 4) (r :: rs) with
      | none => rw [hw] at h; exact absurd h (by simp)
      | some w' =>
        rw [hw] at h
        simp only [Option.some.injEq] at h
        subst h
        have ih := write_length bo (start + db.length + 4) (r :: rs) w' hw (by simp)
        obtain ⟨-, -, hlen⟩ := dir_to_writer_some bo d db hdb
        have hr : relStart (d :: r :: rs) (d :: r :: rs).length =
            dirSize d + 4 + relStart (r :: rs) (r :: rs).length := by rfl
        rw [hr, ← ih]
        simp only [List.length_append, u32Bytes_length]
        omega

theorem write_sentinel (bo : ByteOrder) :
    ∀ (start : Nat) (C : List RawIFD) (w : List Nat),
    write_raw_ifds bo start C = some w → ∃ w₀, w = w₀ ++ u32Bytes bo 0
  | _, [], w, h => by
    refine ⟨[], ?_⟩
    simp only [write_raw_ifds, Option.some.injEq] at h
    rw [← h]
    simp
  | start, [d], w, h => by
    cases hdb : d.to_writer bo with
    | none => rw [write_cons_none bo start d [] hdb] at h; exact absurd h (by simp)
    | some db =>
      rw [write_single_some bo start d db hdb] at h
      simp only [Option.some.injEq] at h
      exact ⟨db, h.symm⟩
  | start, d :: r :: rs, w, h => by
    cases hdb : d.to_writer bo with
    | none => rw [write_cons_none bo start d (r :: rs) hdb] at h; exact absurd h (by simp)
    | some db =>
      rw [write_cons2_eq bo start d r rs db hdb] at h
      cases hw : write_raw_ifds bo (start + db.length + 4) (r :: rs) with
      | none => rw [hw] at h; exact absurd h (by simp)
      | some w' =>
        rw [hw] at h
        simp only [Option.some.injEq] at h
        obtain ⟨w₀, hw0⟩ := write_sentinel bo (start + db.length + 4) (r :: rs) w' hw
        refine ⟨db ++ u32Bytes bo (((start + db.length) % 2 ^ 32 + 4) % 2 ^ 32) ++ w₀, ?_⟩
        rw [← h, hw0]
        simp [List.append_assoc]

theorem write_dir_slice (bo : ByteOrder) :
    ∀ (start : Nat) (C : List RawIFD) (w : List Nat) (i : Nat) (d : RawIFD),
    write_raw_ifds bo start C = some w → C[i]? = some d →
    ∃ db, d.to_writer bo = some db ∧ SliceEq w (relStart C i) db
  | _, [], _, i, _, _, hi => by simp at hi
  | start, c :: rest, w, 0, d, h, hi => by
    simp only [List.getElem?_cons_zero, Option.some.injEq] at hi
    subst hi
    cases rest with
    | nil =>
      cases hdb : c.to_writer bo with
      | none => rw [write_cons_none bo start c [] hdb] at h; exact absurd h (by simp)
      | some db =>
        rw [write_single_some bo start c db hdb] at h
        simp only [Option.some.injEq] at h
        subst h
        exact ⟨db, rfl, ((sliceEq_append _ 0 db (u32Bytes bo 0)).mp (sliceEq_refl _)).1⟩
    | cons r rs =>
      cases hdb : c.to_writer bo with
      | none => rw [write_cons_none bo start c (r :: rs) hdb] at h; exact absurd h (by simp)
      | some db =>
        rw [write_cons2_eq bo start c r rs db hdb] at h
        cases hw : write_raw_ifds bo (start + db.length + 4) (r :: rs) with
        | none => rw [hw] at h; exact absurd h (by simp)
        | some w' =>
          rw [hw] at h
          simp only [Option.some.injEq] at h
          subst h
          refine ⟨db, rfl, ?_⟩
          have h1 := ((sliceEq_append
            ((db ++ u32Bytes bo (((start + db.length) % 2 ^ 32 + 4) % 2 ^ 32)) ++ w') 0
            (db ++ u32Bytes bo (((start + db.length) % 2 ^ 32 + 4) % 2 ^ 32)) w').mp
            (sliceEq_refl _)).1
          exact ((sliceEq_append _ 0 db _).mp h1).1
  | start, c :: rest, w, i + 1, d, h, hi => by
    simp only [List.getElem?_cons_succ] at hi
    cases rest with
    | nil => simp at hi
    | cons r rs =>
      cases hdb : c.to_writer bo with
      | none => rw [write_cons_none bo start c (r :: rs) hdb] at h; exact absurd h (by simp)
      | some db =>
        rw [write_cons2_eq bo start c r rs db hdb] at h
        cases hw : write_raw_ifds bo (start + db.length + 4) (r :: rs) with
        | none => rw [hw] at h; exact absurd h (by simp)
        | some w' =>
          rw [hw] at h
          simp only [Option.some.injEq] at h
          subst h
          obtain ⟨db', hdb', hsl⟩ :=
            write_dir_slice bo (start + db.length + 4) (r :: rs) w' i d hw hi
          refine ⟨db', hdb', ?_⟩
          obtain ⟨-, -, hlen⟩ := dir_to_writer_some bo c db hdb
          have hshift := sliceEq_shift
            (db ++ u32Bytes bo (((start + db.length) % 2 ^ 32 + 4) % 2 ^ 32)) w' db'
            (relStart (r :: rs) i) hsl
          have hpos :
              (db ++ u32Bytes bo (((start + db.length) % 2 ^ 32 + 4) % 2 ^ 32)).length +
                relStart (r :: rs) i = relStart (c :: r :: rs) (i + 1) := by
            simp only [List.length_append, u32Bytes_length, relStart]
            omega
          rw [hpos] at hshift
          exact hshift

theorem write_link_slice (bo : ByteOrder) :
    ∀ (start : Nat) (C : List RawIFD) (w : List Nat) (i : Nat) (d : RawIFD),
    write_raw_ifds bo start C = some w → C[i]? = some d → i + 1 < C.length →
    SliceEq w (relStart C i + dirSize d)
      (u32Bytes bo (((start + (relStart C i + dirSize d)) % 2 ^ 32 + 4) % 2 ^ 32))
  | _, [], _, i, _, _, hi, _ => by simp at hi
  | start, c :: rest, w, 0, d, h, hi, hlt => by
    simp only [List.getElem?_cons_zero, Option.some.injEq] at hi
    subst hi
    cases rest with
    | nil => simp at hlt
    | cons r rs =>
      cases hdb : c.to_writer bo with
      | none => rw [write_cons_none bo start c (r :: rs) hdb] at h; exact absurd h (by simp)
      | some db =>
        rw [write_cons2_eq bo start c r rs db hdb] at h
        cases hw : write_raw_ifds bo (start + db.length + 4) (r :: rs) with
        | none => rw [hw] at h; exact absurd h (by simp)
        | some w' =>
          rw [hw] at h
          simp only [Option.some.injEq] at h
          subst h
          obtain ⟨-, -, hlen⟩ := dir_to_writer_some bo c db hdb
          have h1 := ((sliceEq_append
            ((db ++ u32Bytes bo (((start + db.length) % 2 ^ 32 + 4) % 2 ^ 32)) ++ w') 0
            (db ++ u32Bytes bo (((start + db.length) % 2 ^ 32 + 4) % 2 ^ 32)) w').mp
            (sliceEq_refl _)).1
          have h2 := ((sliceEq_append _ 0 db _).mp h1).2
          have hval : start + (relStart (c :: r :: rs) 0 + dirSize c) =
              start + db.length := by
            simp [relStart, hlen]
          have hpos : relStart (c :: r :: rs) 0 + dirSize c = 0 + db.length := by
            simp [relStart, hlen]
          rw [hval, hpos]
          exact h2
  | start, c :: rest, w, i + 1, d, h, hi, hlt => by
    simp only [List.getElem?_cons_succ] at hi
    cases rest with
    | nil => simp at hi
    | cons r rs =>
      cases hdb : c.to_writer bo with
      | none => rw [write_cons_none bo start c (r :: rs) hdb] at h; exact absurd h (by simp)
      | some db =>
        rw [write_cons2_eq bo start c r rs db hdb] at h
        cases hw : write_raw_ifds bo (start + db.length + 4) (r :: rs) with
        | none => rw [hw] at h; exact absurd h (by simp)
        | some w' =>
          rw [hw] at h
          simp only [Option.some.injEq] at h
          subst h
          have hlt' : i + 1 < (r :: rs).length := by
            simp only [List.length_cons] at hlt ⊢
            omega
          have ih := write_link_slice bo (start + db.length + 4) (r :: rs) w' i d hw hi hlt'
          obtain ⟨-, -, hlen⟩ := dir_to_writer_some bo c db hdb
          have hshift := sliceEq_shift
            (db ++ u32Bytes bo (((start + db.length) % 2 ^ 32 + 4) % 2 ^ 32)) w' _ _ ih
          have hpos :
              (db ++ u32Bytes bo (((start + db.length) % 2 ^ 32 + 4) % 2 ^ 32)).length +
                (relStart (r :: rs) i + dirSize d) =
                relStart (c :: r :: rs) (i + 1) + dirSize d := by
            simp only [List.length_append, u32Bytes_length, relStart]
            omega
          have hval : start + db.length + 4 + (relStart (r :: rs) i + dirSize d) =
              start + (relStart (c :: r :: rs) (i + 1) + dirSize d) := by
            simp only [relStart]
            omega
          rw [hpos, hval] at hshift
          exact hshift

/-- The on-stream layout that `read_raw_ifds` consumes for chain `C` when
the cursor sits at position `q`: for the empty chain, a zero sentinel; for
a nonempty chain, a 4-byte field holding the absolute offset `q + 4` of
the first directory, followed there by the bytes `write_raw_ifds` emits
for `C` when called at position `q + 4`, all link positions below
`2 ^ 32`. -/
def ReadLayout (bo : ByteOrder) (D : List Nat) (q : Nat) : List RawIFD → Prop
  | [] => SliceEq D q (u32Bytes bo 0)
  | d :: rest => ∃ w, write_raw_ifds bo (q + 4) (d :: rest) = some w ∧
      SliceEq D q (u32Bytes bo (q + 4) ++ w) ∧ q + 4 + w.length < 2 ^ 32


/-- Total number of bytes `write_raw_ifds` appends for a nonempty chain
(each directory plus its trailing 4-byte link or sentinel field); `0` for
the empty chain (whose sentinel is counted by the reader's head field). -/
def chainLen : List RawIFD → Nat
  | [] => 0
  | d :: rest => dirSize d + 4 + chainLen rest

theorem read_write_chain (bo : ByteOrder) :
    ∀ (C : List RawIFD) (fuel : Nat) (D : List Nat) (q k : Nat),
    ChainWF C → C.length < fuel → ReadLayout bo D q C →
    read_raw_ifds_fuel bo fuel ⟨D, q, k⟩ =
      .ok C ⟨D, q + 4 + chainLen C, k + C.length⟩
  | [], fuel, D, q, k, _, hfuel, hl => by
    cases fuel with
    | zero => omega
    | succ fuel =>
      have hl' : SliceEq D q (u32Bytes bo 0) := hl
      have hread := read_u32_slice bo D q k 0 (by norm_num) hl'
      unfold read_raw_ifds_fuel
      simp [hread, chainLen]
  | d :: rest, fuel, D, q, k, hwf, hfuel, hl => by
    cases fuel with
    | zero => simp at hfuel
    | succ fuel =>
      obtain ⟨w, hw, hsl, hbound⟩ := hl
      cases hdb : d.to_writer bo with
      | none =>
        rw [write_cons_none bo (q + 4) d rest hdb] at hw
        exact absurd hw (by simp)
      | some db =>
        obtain ⟨-, -, hlen⟩ := dir_to_writer_some bo d db hdb
        rw [sliceEq_append, u32Bytes_length] at hsl
        obtain ⟨hhead, hbody⟩ := hsl
        have hread := read_u32_slice bo D q k (q + 4) (by omega) hhead
        unfold read_raw_ifds_fuel
        simp only [hread]
        rw [if_neg (show ¬ (q + 4 = 0) by omega)]
        cases rest with
        | nil =>
          rw [write_single_some bo (q + 4) d db hdb] at hw
          simp only [Option.some.injEq] at hw
          subst hw
          rw [sliceEq_append] at hbody
          obtain ⟨hdbs, hsent⟩ := hbody
          have hdir := dir_roundtrip_slice bo D (q + 4) (k + 1) d db
            (hwf d (by simp)) hdb hdbs
          have hpos : q + 4 + db.length = q + 4 + dirSize d := by omega
          rw [hpos] at hsent
          have ih := read_write_chain bo [] fuel D (q + 4 + dirSize d) (k + 1)
            (by intro x hx; simp at hx)
            (by simp only [List.length_cons, List.length_nil] at hfuel ⊢; omega) hsent
          simp only [seekTo, hdir, ih]
          simp only [ReadResult.ok.injEq, RStream.mk.injEq, chainLen, List.length_cons,
            List.length_nil, eq_self_iff_true, true_and, and_true]
          omega
        | cons r rs =>
          rw [write_cons2_eq bo (q + 4) d r rs db hdb] at hw
          cases hw' : write_raw_ifds bo (q + 4 + db.length + 4) (r :: rs) with
          | none => rw [hw'] at hw; exact absurd hw (by simp)
          | some w' =>
            rw [hw'] at hw
            simp only [Option.some.injEq] at hw
            subst hw
            have hwlen : ((db ++
                u32Bytes bo (((q + 4 + db.length) % 2 ^ 32 + 4) % 2 ^ 32)) ++
                w').length = db.length + 4 + w'.length := by
              simp only [List.length_append, u32Bytes_length]
            rw [hwlen] at hbound
            rw [sliceEq_append, sliceEq_append, List.length_append, u32Bytes_length]
              at hbody
            obtain ⟨⟨hdbs, hlk⟩, hw's⟩ := hbody
            have hdir := dir_roundtrip_slice bo D (q + 4) (k + 1) d db
              (hwf d (by simp)) hdb hdbs
            have hlay : ReadLayout bo D (q + 4 + dirSize d) (r :: rs) := by
              refine ⟨w', ?_, ?_, ?_⟩
              · have hp : q + 4 + dirSize d + 4 = q + 4 + db.length + 4 := by omega
                rw [hp]
                exact hw'
              · rw [sliceEq_append, u32Bytes_length]
                constructor
                · have hv2 : q + 4 + dirSize d + 4 =
                      ((q + 4 + db.length) % 2 ^ 32 + 4) % 2 ^ 32 := by omega
                  have hp : q + 4 + dirSize d = q + 4 + db.length := by omega
                  rw [hv2, hp]
                  exact hlk
                · have hp : q + 4 + dirSize d + 4 = q + 4 + (db.length + 4) := by omega
                  rw [hp]
                  exact hw's
              · omega
            have ih := read_write_chain bo (r :: rs) fuel D (q + 4 + dirSize d) (k + 1)
              (fun x hx => hwf x (List.mem_cons_of_mem d hx))
              (by simp only [List.length_cons] at hfuel ⊢; omega) hlay
            simp only [seekTo, hdir, ih]
            simp only [ReadResult.ok.injEq, RStream.mk.injEq, chainLen, List.length_cons,
              eq_self_iff_true, true_and, and_true]
            omega

/-- Claim C1, counterexample: the claim as stated is false.  Writing the
one-directory chain `[⟨[]⟩]` and running the chain reader on the written
stream from its start offset yields the empty chain, not the original:
`write_raw_ifds` emits no head offset, while `read_raw_ifds` begins by
reading one, so the first bytes it consumes (the entry count `0 0`, here
continuing into the sentinel) decode as a terminating zero offset. -/
theorem c1_counterexample :
    write_raw_ifds .be 0 [⟨[]⟩] = some [0, 0, 0, 0, 0, 0] ∧
    read_raw_ifds_fuel .be 2 ⟨[0, 0, 0, 0, 0, 0], 0, 0⟩ =
      .ok [] ⟨[0, 0, 0, 0, 0, 0], 4, 0⟩ ∧
    ([] : List RawIFD) ≠ [⟨[]⟩] := by
  refine ⟨by decide, by decide, by decide⟩

/-- Claim C1 (amended): for every well-formed DirectoryChain `C` and every
byte order, writing `C` with `write_raw_ifds` and re-reading with
`read_raw_ifds` reproduces `C` exactly — same directories, same entry
order, same field values — provided the reader is entered at a 4-byte head
field holding the absolute offset of the first directory (written bytes at
position 4, head field at position 0; for the empty chain the written
sentinel itself is that field) and all positions fit in 32 bits. -/
theorem c1_roundtrip_amended (bo : ByteOrder) (C : List RawIFD) (w : List Nat)
    (fuel : Nat) (hwf : ChainWF C) (hw : write_raw_ifds bo 4 C = some w)
    (hbound : 4 + w.length < 2 ^ 32) (hfuel : C.length < fuel) :
    (C ≠ [] → read_raw_ifds_fuel bo fuel ⟨u32Bytes bo 4 ++ w, 0, 0⟩ =
      .ok C ⟨u32Bytes bo 4 ++ w, 4 + chainLen C, C.length⟩) ∧
    (C = [] → read_raw_ifds_fuel bo fuel ⟨w, 0, 0⟩ = .ok [] ⟨w, 4, 0⟩) := by
  constructor
  · intro hne
    have hlay : ReadLayout bo (u32Bytes bo 4 ++ w) 0 C := by
      cases C with
      | nil => exact absurd rfl hne
      | cons d rest => exact ⟨w, hw, sliceEq_refl _, by omega⟩
    have hrun := read_write_chain bo C fuel (u32Bytes bo 4 ++ w) 0 0 hwf hfuel hlay
    rw [hrun]
    simp only [ReadResult.ok.injEq, RStream.mk.injEq, eq_self_iff_true, true_and,
      and_true]
    omega
  · intro hemp
    subst hemp
    simp only [write_raw_ifds, Option.some.injEq] at hw
    subst hw
    have hrun := read_write_chain bo [] fuel (u32Bytes bo 0) 0 0
      (by intro x hx; simp at hx) hfuel (sliceEq_refl _)
    rw [hrun]
    simp [chainLen]

/-- Claim C1 witness: the amended round trip evaluated on the concrete
chain of two empty directories under big-endian order. -/
theorem c1_roundtrip_amended_witness :
    read_raw_ifds_fuel .be 3
      ⟨[0, 0, 0, 4, 0, 0, 0, 0, 0, 10, 0, 0, 0, 0, 0, 0], 0, 0⟩ =
      .ok [⟨[]⟩, ⟨[]⟩]
        ⟨[0, 0, 0, 4, 0, 0, 0, 0, 0, 10, 0, 0, 0, 0, 0, 0], 16, 2⟩ :=
  (c1_roundtrip_amended .be [⟨[]⟩, ⟨[]⟩] [0, 0, 0, 0, 0, 10, 0, 0, 0, 0, 0, 0] 3
    (by decide) (by decide) (by decide) (by decide)).1 (by decide)

/-- Claim C2, counterexample: the claim as stated is false.  The source
asserts `len < u16::MAX as usize`, i.e. `len < 65535`, so a directory with
exactly 65535 entries — a count that does not exceed 65535 and fits in 16
bits — already takes the contract-error path. -/
theorem c2_counterexample :
    RawIFD.to_writer .be ⟨List.replicate 65535 ⟨0, 0, 0, (0, 0, 0, 0)⟩⟩ = none ∧
    (65535 : Nat) ≤ 65535 := by
  have hlen : (RawIFD.mk (List.replicate 65535 ⟨0, 0, 0, (0, 0, 0, 0)⟩)).entries.length
      = 65535 := List.length_replicate 65535 _
  refine ⟨?_, Nat.le_refl _⟩
  unfold RawIFD.to_writer
  rw [if_neg (by rw [hlen]; omega)]

/-- Claim C2 (amended): directory encode takes the contract-error path if
and only if the entry count is at least 65535; every directory with at
most 65534 entries is written with its exact count as the leading 16-bit
field; and a directory with 65536 entries fails via the contract-error
path rather than writing a wrapped-around count. -/
theorem c2_count_guard :
    (∀ (bo : ByteOrder) (d : RawIFD),
      RawIFD.to_writer bo d = none ↔ 65535 ≤ d.entries.length) ∧
    (∀ (bo : ByteOrder) (d : RawIFD), d.entries.length < 65535 →
      ∃ out, RawIFD.to_writer bo d = some out ∧
        read_u16 bo ⟨out, 0, 0⟩ = some (d.entries.length, ⟨out, 2, 0⟩)) ∧
    (∀ (bo : ByteOrder) (e : RawIFDEntry),
      RawIFD.to_writer bo ⟨List.replicate 65536 e⟩ = none) := by
  refine ⟨?_, ?_, ?_⟩
  · intro bo d
    constructor
    · exact dir_to_writer_none bo d
    · intro h
      unfold RawIFD.to_writer
      rw [if_neg (by omega)]
  · intro bo d h
    refine ⟨u16Bytes bo d.entries.length ++ entriesBytes bo d.entries, ?_, ?_⟩
    · unfold RawIFD.to_writer
      rw [if_pos h]
    · have hs : SliceEq (u16Bytes bo d.entries.length ++ entriesBytes bo d.entries) 0
          (u16Bytes bo d.entries.length) :=
        ((sliceEq_append (u16Bytes bo d.entries.length ++ entriesBytes bo d.entries) 0
          (u16Bytes bo d.entries.length) (entriesBytes bo d.entries)).mp
          (sliceEq_refl _)).1
      exact read_u16_slice bo _ 0 0 d.entries.length (by omega) hs
  · intro bo e
    have hlen : (RawIFD.mk (List.replicate 65536 e)).entries.length = 65536 :=
      List.length_replicate 65536 e
    unfold RawIFD.to_writer
    rw [if_neg (by rw [hlen]; omega)]

/-- Claim C2 witness: the amended guarantee evaluated on the empty
directory under big-endian order. -/
theorem c2_count_guard_witness :
    ∃ out, RawIFD.to_writer .be ⟨[]⟩ = some out ∧
      read_u16 .be ⟨out, 0, 0⟩ = some (0, ⟨out, 2, 0⟩) :=
  c2_count_guard.2.1 .be ⟨[]⟩ (by decide)

/-- Claim C3, counterexample: the claim as stated is false.  Writing the
two-directory chain of empty directories with the writer positioned at
`2 ^ 32` succeeds silently, but the offset field after the first
directory decodes to `6` (the truncated `current_position as u32 + 4`),
not to `2 ^ 32 + 6`, the absolute stream position of the second
directory's entry-count field. -/
theorem c3_counterexample :
    write_raw_ifds .be (2 ^ 32) [⟨[]⟩, ⟨[]⟩] =
      some [0, 0, 0, 0, 0, 6, 0, 0, 0, 0, 0, 0] ∧
    read_u32 .be ⟨[0, 0, 0, 0, 0, 6, 0, 0, 0, 0, 0, 0], 2, 0⟩ =
      some (6, ⟨[0, 0, 0, 0, 0, 6, 0, 0, 0, 0, 0, 0], 6, 0⟩) ∧
    (2 : Nat) ^ 32 + 6 ≠ 6 := by
  refine ⟨by decide, by decide, by decide⟩

/-- Claim C3 (amended): after `write_raw_ifds` on a chain of at least two
directories, provided every written position fits in 32 bits
(`start + w.length < 2 ^ 32`), the 4-byte field after directory `i`'s
entries decodes to the absolute position of directory `i + 1`'s
entry-count field for every `i < k - 1`; directories are laid out
contiguously in chain order with each directory's bytes at its computed
position and exactly 4 link bytes between consecutive directories (no
padding); and the 4 bytes after the last directory are the zero
sentinel. -/
theorem c3_chain_linkage (bo : ByteOrder) (start : Nat) (C : List RawIFD)
    (w : List Nat) (hw : write_raw_ifds bo start C = some w) (hk : 2 ≤ C.length)
    (hbound : start + w.length < 2 ^ 32) :
    (∀ i d, C[i]? = some d → i + 1 < C.length →
      read_u32 bo ⟨w, relStart C i + dirSize d, 0⟩ =
        some (start + relStart C (i + 1), ⟨w, relStart C i + dirSize d + 4, 0⟩)) ∧
    (∀ i d, C[i]? = some d → relStart C (i + 1) = relStart C i + dirSize d + 4) ∧
    (∀ i d, C[i]? = some d → ∃ db, d.to_writer bo = some db ∧
      db.length = dirSize d ∧ SliceEq w (relStart C i) db) ∧
    (∃ w₀, w = w₀ ++ [0, 0, 0, 0]) ∧
    w.length = relStart C C.length := by
  have hne : C ≠ [] := by
    intro h
    subst h
    simp at hk
  have hClen := write_length bo start C w hw hne
  refine ⟨?_, ?_, ?_, ?_, hClen⟩
  · intro i d hi hilt
    have hlink := write_link_slice bo start C w i d hw hi hilt
    have hsucc := relStart_succ C i d hi
    have hmon := relStart_mono C (i + 1) C.length (by omega)
    have hvlt : start + relStart C (i + 1) < 2 ^ 32 := by omega
    have hveq : ((start + (relStart C i + dirSize d)) % 2 ^ 32 + 4) % 2 ^ 32 =
        start + relStart C (i + 1) := by omega
    rw [hveq] at hlink
    exact read_u32_slice bo w (relStart C i + dirSize d) 0
      (start + relStart C (i + 1)) (by omega) hlink
  · intro i d hi
    exact relStart_succ C i d hi
  · intro i d hi
    obtain ⟨db, hdb, hsl⟩ := write_dir_slice bo start C w i d hw hi
    exact ⟨db, hdb, (dir_to_writer_some bo d db hdb).2.2, hsl⟩
  · obtain ⟨w₀, hw0⟩ := write_sentinel bo start C w hw
    exact ⟨w₀, by rw [hw0, u32Bytes_zero]⟩

/-- Claim C3 witness: the amended linkage guarantee evaluated on the
concrete chain of two empty directories written at position 4 under
big-endian order: the link after directory 0 decodes to absolute
position 10, the start of directory 1's count field. -/
theorem c3_chain_linkage_witness :
    read_u32 .be ⟨[0, 0, 0, 0, 0, 10, 0, 0, 0, 0, 0, 0], 2, 0⟩ =
      some (10, ⟨[0, 0, 0, 0, 0, 10, 0, 0, 0, 0, 0, 0], 6, 0⟩) :=
  (c3_chain_linkage .be 4 [⟨[]⟩, ⟨[]⟩] [0, 0, 0, 0, 0, 10, 0, 0, 0, 0, 0, 0]
    (by decide) (by decide) (by decide)).1 0 ⟨[]⟩ (by decide) (by decide)

/-- Claim C4: writing an empty DirectoryChain produces exactly one 4-byte
zero sentinel and nothing else, for every byte order and start position;
and running the chain reader on those four bytes yields the empty chain
(for any loop budget and seek count). -/
theorem c4_empty_chain :
    (∀ (bo : ByteOrder) (start : Nat),
      write_raw_ifds bo start [] = some [0, 0, 0, 0]) ∧
    (∀ (bo : ByteOrder) (fuel k : Nat),
      read_raw_ifds_fuel bo (fuel + 1) ⟨[0, 0, 0, 0], 0, k⟩ =
        .ok [] ⟨[0, 0, 0, 0], 4, k⟩) := by
  constructor
  · intro bo start
    cases bo <;> rfl
  · intro bo fuel k
    have h := read_u32_slice bo [0, 0, 0, 0] 0 k 0 (by norm_num)
      (by rw [u32Bytes_zero]; exact sliceEq_refl _)
    unfold read_raw_ifds_fuel
    simp [h]

/-- Claim C5: on every stream whose 4 bytes at the current read position
decode to the offset 0 under the chosen byte order, the chain reader
returns the empty chain, performs no seek (the seek counter is unchanged),
and advances the cursor by exactly the 4 bytes of the offset read. -/
theorem c5_zero_offset_no_seek (bo : ByteOrder) (s : RStream) (b0 b1 b2 b3 : Nat)
    (h0 : s.data[s.pos]? = some b0) (h1 : s.data[s.pos + 1]? = some b1)
    (h2 : s.data[s.pos + 2]? = some b2) (h3 : s.data[s.pos + 3]? = some b3)
    (hz : u32Val bo b0 b1 b2 b3 = 0) (fuel : Nat) :
    read_raw_ifds_fuel bo (fuel + 1) s = .ok [] ⟨s.data, s.pos + 4, s.seeks⟩ := by
  have hb : b0 = 0 ∧ b1 = 0 ∧ b2 = 0 ∧ b3 = 0 := by
    cases bo <;> (simp only [u32Val] at hz; omega)
  obtain ⟨hb0, hb1, hb2, hb3⟩ := hb
  subst hb0
  subst hb1
  subst hb2
  subst hb3
  have hsl : SliceEq s.data s.pos (u32Bytes bo 0) := by
    rw [u32Bytes_zero]
    intro i hi
    simp only [List.length_cons, List.length_nil] at hi
    interval_cases i
    · simpa using h0
    · simpa using h1
    · simpa using h2
    · simpa using h3
  have hread : read_u32 bo s = some (0, ⟨s.data, s.pos + 4, s.seeks⟩) :=
    read_u32_slice bo s.data s.pos s.seeks 0 (by norm_num) hsl
  unfold read_raw_ifds_fuel
  simp [hread]

/-- Claim C5 witness: the no-seek empty-chain read evaluated on the
concrete 4-byte zero stream under big-endian order. -/
theorem c5_zero_offset_no_seek_witness :
    read_raw_ifds_fuel .be 1 ⟨[0, 0, 0, 0], 0, 0⟩ =
      .ok [] ⟨[0, 0, 0, 0], 4, 0⟩ :=
  c5_zero_offset_no_seek .be ⟨[0, 0, 0, 0], 0, 0⟩ 0 0 0 0 (by decide) (by decide)
    (by decide) (by decide) (by decide) 0

/-- Claim C6: entry decode fails with an I/O error whenever fewer than 12
bytes remain; directory decode fails on truncation at the count field or
during any entry decode; and a successful directory decode is complete —
it holds exactly the decoded count of entries and leaves the stream
advanced over all of them (never a partially populated result). -/
theorem c6_truncation_atomic :
    (∀ (bo : ByteOrder) (s : RStream), s.data.length < s.pos + 12 →
      RawIFDEntry.from_reader bo s = none) ∧
    (∀ (bo : ByteOrder) (s : RStream), s.data.length < s.pos + 2 →
      RawIFD.from_reader bo s = none) ∧
    (∀ (bo : ByteOrder) (s : RStream) (n : Nat) (s₁ : RStream),
      read_u16 bo s = some (n, s₁) → s.data.length < s.pos + 2 + 12 * n →
      RawIFD.from_reader bo s = none) ∧
    (∀ (bo : ByteOrder) (s : RStream) (d : RawIFD) (s' : RStream),
      RawIFD.from_reader bo s = some (d, s') →
      ∃ n s₁, read_u16 bo s = some (n, s₁) ∧ d.entries.length = n ∧
        s'.data = s.data ∧ s'.pos = s.pos + 2 + 12 * n ∧ s'.seeks = s.seeks) := by
  refine ⟨?_, ?_, ?_, ?_⟩
  · intro bo s hshort
    cases hfr : RawIFDEntry.from_reader bo s with
    | none => rfl
    | some p =>
      obtain ⟨e, s'⟩ := p
      obtain ⟨-, -, -, hbnd⟩ := entry_from_reader_some bo s e s' hfr
      exact absurd hbnd (by omega)
  · intro bo s hshort
    cases hfr : RawIFD.from_reader bo s with
    | none => rfl
    | some p =>
      obtain ⟨d, s'⟩ := p
      obtain ⟨n, s₁, hu16, -, -, -, -, -⟩ := dir_from_reader_some bo s d s' hfr
      obtain ⟨-, -, -, hple⟩ := read_u16_some bo s n s₁ hu16
      exact absurd hple (by omega)
  · intro bo s n s₁ hu16 hshort
    cases hfr : RawIFD.from_reader bo s with
    | none => rfl
    | some p =>
      obtain ⟨d, s'⟩ := p
      obtain ⟨n', s₁', hu16', -, -, -, -, hbnd⟩ := dir_from_reader_some bo s d s' hfr
      rw [hu16] at hu16'
      simp only [Option.some.injEq, Prod.mk.injEq] at hu16'
      obtain ⟨hn', -⟩ := hu16'
      subst hn'
      obtain ⟨-, -, -, hple⟩ := read_u16_some bo s n s₁ hu16
      rcases Nat.eq_zero_or_pos n with hn | hn
      · subst hn
        exact absurd hple (by omega)
      · exact absurd (hbnd hn) (by omega)
  · intro bo s d s' h
    obtain ⟨n, s₁, h1, h2, h3, h4, h5, -⟩ := dir_from_reader_some bo s d s' h
    exact ⟨n, s₁, h1, h2, h3, h4, h5⟩

/-- Claim C6 witness: entry decode fails on a stream holding only 8 of
the 12 required bytes. -/
theorem c6_truncation_atomic_witness :
    RawIFDEntry.from_reader .be ⟨[0, 0, 0, 0, 0, 0, 0, 0], 0, 0⟩ = none :=
  c6_truncation_atomic.1 .be ⟨[0, 0, 0, 0, 0, 0, 0, 0], 0, 0⟩ (by decide)

/-- A stream with an offset cycle: the head offset at position 0 points
to the empty directory at position 4; the next-offset field after that
directory (at position 6) points back to position 4. -/
def cyclicStream : List Nat := [0, 0, 0, 4, 0, 0, 0, 0, 0, 4]

theorem cyclic_loop_aux : ∀ (n k : Nat),
    read_raw_ifds_fuel .be n ⟨cyclicStream, 6, k⟩ = .fuelOut
  | 0, _ => rfl
  | n + 1, k => by
    have h6 : read_u32 .be ⟨cyclicStream, 6, k⟩ = some (4, ⟨cyclicStream, 10, k⟩) := by
      have r6 := readByte_slice cyclicStream 6 k 0 (by decide)
      have r7 := readByte_slice cyclicStream 7 k 0 (by decide)
      have r8 := readByte_slice cyclicStream 8 k 0 (by decide)
      have r9 := readByte_slice cyclicStream 9 k 4 (by decide)
      unfold read_u32
      simp only [r6, r7, r8, r9]
      norm_num [u32Val]
    have hdir : RawIFD.from_reader .be ⟨cyclicStream, 4, k + 1⟩ =
        some (⟨[]⟩, ⟨cyclicStream, 6, k + 1⟩) := by
      have r4 := readByte_slice cyclicStream 4 (k + 1) 0 (by decide)
      have r5 := readByte_slice cyclicStream 5 (k + 1) 0 (by decide)
      have h16 : read_u16 .be ⟨cyclicStream, 4, k + 1⟩ =
          some (0, ⟨cyclicStream, 6, k + 1⟩) := by
        unfold read_u16
        simp only [r4, r5]
        norm_num [u16Val]
      unfold RawIFD.from_reader
      simp only [h16]
      simp [readEntries]
    unfold read_raw_ifds_fuel
    simp only [h6]
    rw [if_neg (by norm_num)]
    simp only [seekTo, hdir]
    rw [cyclic_loop_aux n (k + 1)]

theorem read_ok_last_zero (bo : ByteOrder) :
    ∀ (n : Nat) (s : RStream) (l : List RawIFD) (s' : RStream),
    read_raw_ifds_fuel bo n s = .ok l s' →
    read_u32 bo ⟨s'.data, s'.pos - 4, s'.seeks⟩ = some (0, s')
  | 0, s, l, s', h => absurd h (by simp [read_raw_ifds_fuel])
  | n + 1, s, l, s', h => by
    unfold read_raw_ifds_fuel at h
    cases hu : read_u32 bo s with
    | none => rw [hu] at h; exact absurd h (by simp)
    | some p =>
      obtain ⟨off, s₂⟩ := p
      rw [hu] at h
      simp only at h
      by_cases hoff : off = 0
      · rw [if_pos hoff] at h
        simp only [ReadResult.ok.injEq] at h
        obtain ⟨-, hs⟩ := h
        subst hs
        obtain ⟨hd, hp, hk, -⟩ := read_u32_some bo s off s₂ hu
        rw [hd, hp, hk]
        have harith : s.pos + 4 - 4 = s.pos := by omega
        rw [harith]
        show read_u32 bo s = some (0, s₂)
        rw [← hoff]
        exact hu
      · rw [if_neg hoff] at h
        cases hdr : RawIFD.from_reader bo (seekTo off s₂) with
        | none => rw [hdr] at h; exact absurd h (by simp)
        | some q =>
          obtain ⟨dir, s₃⟩ := q
          rw [hdr] at h
          simp only at h
          cases hrec : read_raw_ifds_fuel bo n s₃ with
          | ok ds s'' =>
            rw [hrec] at h
            simp only [ReadResult.ok.injEq] at h
            obtain ⟨-, hs⟩ := h
            subst hs
            exact read_ok_last_zero bo n s₃ ds s'' hrec
          | ioError => rw [hrec] at h; exact absurd h (by simp)
          | fuelOut => rw [hrec] at h; exact absurd h (by simp)

/-- Claim C7: the chain reader performs no cycle detection — on the
concrete cyclic stream `cyclicStream` it exhausts every loop budget
(the loop never terminates) — and it terminates only by reading a zero
offset or hitting an I/O error: every successful run ends with the 4
bytes just consumed decoding to the offset 0. -/
theorem c7_no_cycle_detection :
    (∀ n : Nat, read_raw_ifds_fuel .be n ⟨cyclicStream, 0, 0⟩ = .fuelOut) ∧
    (∀ (bo : ByteOrder) (n : Nat) (s : RStream) (l : List RawIFD) (s' : RStream),
      read_raw_ifds_fuel bo n s = .ok l s' →
      read_u32 bo ⟨s'.data, s'.pos - 4, s'.seeks⟩ = some (0, s')) := by
  constructor
  · intro n
    cases n with
    | zero => rfl
    | succ n =>
      have h0 : read_u32 .be ⟨cyclicStream, 0, 0⟩ =
          some (4, ⟨cyclicStream, 4, 0⟩) := by decide
      have hdir : RawIFD.from_reader .be ⟨cyclicStream, 4, 1⟩ =
          some (⟨[]⟩, ⟨cyclicStream, 6, 1⟩) := by decide
      unfold read_raw_ifds_fuel
      simp only [h0]
      rw [if_neg (by norm_num)]
      simp only [seekTo, hdir]
      rw [cyclic_loop_aux n 1]
  · exact fun bo n s l s' h => read_ok_last_zero bo n s l s' h

/-- Claim C7 witness: the termination characterization evaluated on the
concrete 4-byte zero stream. -/
theorem c7_no_cycle_detection_witness :
    read_u32 .be ⟨[0, 0, 0, 0], 0, 0⟩ = some (0, ⟨[0, 0, 0, 0], 4, 0⟩) :=
  c7_no_cycle_detection.2 .be 1 ⟨[0, 0, 0, 0], 0, 0⟩ [] ⟨[0, 0, 0, 0], 4, 0⟩
    (by decide)

/-- Claim C8: for every entry within the Rust field ranges, encoding with
`RawIFDEntry::to_writer` and decoding the produced bytes with
`RawIFDEntry::from_reader` under the same byte order (big- or
little-endian alike) recovers the entry exactly; and decoding the
big-endian encoding of the fixed asymmetric entry `⟨258, 0, 0, 0s⟩` as
little-endian yields `⟨513, 0, 0, 0s⟩`, which differs from the original. -/
theorem c8_endianness :
    (∀ (e : RawIFDEntry) (bo : ByteOrder) (k : Nat), e.WF →
      RawIFDEntry.from_reader bo ⟨e.to_writer bo, 0, k⟩ =
        some (e, ⟨e.to_writer bo, 12, k⟩)) ∧
    (RawIFDEntry.from_reader .le
        ⟨RawIFDEntry.to_writer .be ⟨258, 0, 0, (0, 0, 0, 0)⟩, 0, 0⟩ =
      some (⟨513, 0, 0, (0, 0, 0, 0)⟩,
        ⟨RawIFDEntry.to_writer .be ⟨258, 0, 0, (0, 0, 0, 0)⟩, 12, 0⟩) ∧
      (⟨513, 0, 0, (0, 0, 0, 0)⟩ : RawIFDEntry) ≠ ⟨258, 0, 0, (0, 0, 0, 0)⟩) := by
  constructor
  · intro e bo k hwf
    exact entry_roundtrip_slice bo (e.to_writer bo) 0 k e hwf (sliceEq_refl _)
  · exact ⟨by decide, by decide⟩

/-- Claim C8 witness: the same-order round trip evaluated on the fixed
entry `⟨258, 0, 0, 0s⟩` under big-endian order. -/
theorem c8_endianness_witness :
    RawIFDEntry.from_reader .be
        ⟨RawIFDEntry.to_writer .be ⟨258, 0, 0, (0, 0, 0, 0)⟩, 0, 0⟩ =
      some (⟨258, 0, 0, (0, 0, 0, 0)⟩,
        ⟨RawIFDEntry.to_writer .be ⟨258, 0, 0, (0, 0, 0, 0)⟩, 12, 0⟩) :=
  c8_endianness.1 ⟨258, 0, 0, (0, 0, 0, 0)⟩ .be 0 (by decide)

/-- Claim C9: encoding any DirectoryEntry always produces exactly 12
bytes (2 + 2 + 4 + 4), regardless of field values; and a successful entry
decode leaves the backing data untouched, advances the cursor by exactly
12 bytes, and performs no seek (the seek counter is unchanged).  On the
write side, the writer appends exactly its output, so a 12-byte output is
a 12-byte position advance. -/
theorem c9_entry_codec_width :
    (∀ (bo : ByteOrder) (e : RawIFDEntry), (e.to_writer bo).length = 12) ∧
    (∀ (bo : ByteOrder) (s : RStream) (e : RawIFDEntry) (s' : RStream),
      RawIFDEntry.from_reader bo s = some (e, s') →
      s'.data = s.data ∧ s'.pos = s.pos + 12 ∧ s'.seeks = s.seeks) := by
  constructor
  · intro bo e
    exact entry_to_writer_length bo e
  · intro bo s e s' h
    obtain ⟨hd, hp, hk, -⟩ := entry_from_reader_some bo s e s' h
    exact ⟨hd, hp, hk⟩

/-- Claim C9 witness: the decode frame condition evaluated on a concrete
12-byte stream. -/
theorem c9_entry_codec_width_witness :
    (⟨List.replicate 12 0, 12, 0⟩ : RStream).data = List.replicate 12 0 ∧
    (⟨List.replicate 12 0, 12, 0⟩ : RStream).pos = 0 + 12 ∧
    (⟨List.replicate 12 0, 12, 0⟩ : RStream).seeks = 0 :=
  c9_entry_codec_width.2 .be ⟨List.replicate 12 0, 0, 0⟩ ⟨0, 0, 0, (0, 0, 0, 0)⟩
    ⟨List.replicate 12 0, 12, 0⟩ (by decide)

theorem write_isSome_iff (bo : ByteOrder) (start : Nat) (C : List RawIFD) :
    (write_raw_ifds bo start C).isSome ↔ ∀ d ∈ C, d.entries.length < 65535 := by
  constructor
  · intro h
    obtain ⟨w, hw⟩ := Option.isSome_iff_exists.mp h
    exact write_some_counts bo start C w hw
  · intro h
    obtain ⟨w, hw⟩ := write_counts_some bo start C h
    rw [hw]
    rfl

/-- Claim C10: the chain writer computes each next-directory link by
truncating the stream position to 32 bits before the 32-bit addition of
4: whenever the position after a non-final directory's entries is at
least `2 ^ 32`, the link written there decodes to
`(position % 2 ^ 32 + 4) % 2 ^ 32` (the wrapped value, which for every
such position differs from the true `position + 4`), and no error is
raised: whether the write succeeds is independent of the stream position,
depending only on the entry counts. -/
theorem c10_offset_truncation :
    (∀ (bo : ByteOrder) (start : Nat) (C : List RawIFD) (w : List Nat) (i : Nat)
      (d : RawIFD),
      write_raw_ifds bo start C = some w → C[i]? = some d → i + 1 < C.length →
      2 ^ 32 ≤ start + (relStart C i + dirSize d) →
      read_u32 bo ⟨w, relStart C i + dirSize d, 0⟩ =
        some (((start + (relStart C i + dirSize d)) % 2 ^ 32 + 4) % 2 ^ 32,
          ⟨w, relStart C i + dirSize d + 4, 0⟩) ∧
      ((start + (relStart C i + dirSize d)) % 2 ^ 32 + 4) % 2 ^ 32 ≠
        start + (relStart C i + dirSize d) + 4) ∧
    (∀ (bo : ByteOrder) (start start' : Nat) (C : List RawIFD),
      (write_raw_ifds bo start C).isSome ↔ (write_raw_ifds bo start' C).isSome) ∧
    (∀ (bo : ByteOrder) (start : Nat) (C : List RawIFD),
      (∀ d ∈ C, d.entries.length < 65535) → (write_raw_ifds bo start C).isSome) := by
  refine ⟨?_, ?_, ?_⟩
  · intro bo start C w i d hw hi hlt hbig
    have hlink := write_link_slice bo start C w i d hw hi hlt
    refine ⟨?_, ?_⟩
    · exact read_u32_slice bo w (relStart C i + dirSize d) 0
        (((start + (relStart C i + dirSize d)) % 2 ^ 32 + 4) % 2 ^ 32)
        (by omega) hlink
    · omega
  · intro bo start start' C
    exact (write_isSome_iff bo start C).trans (write_isSome_iff bo start' C).symm
  · intro bo start C h
    exact (write_isSome_iff bo start C).mpr h

/-- Claim C10 witness: the truncated link evaluated on a two-directory
chain written at position `2 ^ 32`: the link decodes to 6, not to the
true next position `2 ^ 32 + 2 + 4`. -/
theorem c10_offset_truncation_witness :
    read_u32 .be ⟨[0, 0, 0, 0, 0, 6, 0, 0, 0, 0, 0, 0], 2, 0⟩ =
      some (6, ⟨[0, 0, 0, 0, 0, 6, 0, 0, 0, 0, 0, 0], 6, 0⟩) ∧
    (6 : Nat) ≠ 2 ^ 32 + 2 + 4 := by
  have h := c10_offset_truncation.1 .be (2 ^ 32) [⟨[]⟩, ⟨[]⟩]
    [0, 0, 0, 0, 0, 6, 0, 0, 0, 0, 0, 0] 0 ⟨[]⟩ (by decide) (by decide) (by decide)
    (by decide)
  simpa [relStart, dirSize] using h
